import Mathlib

/-!
Pro Mini weather station firmware (`src/main.cpp`)

A shallow embedding of the firmware's sampling / counting / transfer engine.

Modelling conventions
* `word` (16 bit unsigned), `byte` (8 bit unsigned) and `unsigned long` (32 bit) values are
  natural numbers; every store that can overflow carries an explicit `% 2^w`.
* `int` (16 bit signed, `adcCurr`) is an integer; the conversions `word -> int` and
  `int -> word` are `intOfWord` and `wordOfInt`.
* `pow(b, e)` on the small integer arguments used by the firmware is exact exponentiation.
* `analogRead(pin)` is an input: a function from the index of the conversion to its raw result.
  `digitalRead(RAINFLIP)` is an input level of type `Bool`.
* `Wire.write(arr, 2)` appends the two bytes of `arr` to the bytes of the current transfer.
* `LowPower.idle` has no effect on the firmware's variables.
-/

namespace WxStation

/-! ## Constants -/

/-- The define ADC_OS: how many extra bits are wanted over the default 10 bits. -/
def ADC_OS : Nat := 2

/-- Pin A0 of the board (battery voltage). -/
def BATTPIN : Nat := 14

/-- Pin A1 of the board (temperature sensor). -/
def LM35 : Nat := 15

/-- Pin A2 of the board (current sensor). -/
def CURRENT : Nat := 16

/-- Pin A3 of the board (wind direction). -/
def WINDDIRPIN : Nat := 17

/-! ## Machine integer conversions -/

/-- Conversion of a 16 bit signed int to a word (used at the call toArray(adcCurr)). -/
def wordOfInt (x : Int) : Nat := (x % 65536).toNat

/-- Conversion of a word to a 16 bit signed int (used at the store adcCurr = word(..)). -/
def intOfWord (w : Nat) : Int :=
  if w % 65536 < 32768 then ((w % 65536 : Nat) : Int) else ((w % 65536 : Nat) : Int) - 65536

/-! ## The firmware's variables -/

/-- The global variables of the firmware, together with the function-static lastStatus
of softInt. -/
structure State where
  max_samples : Nat
  adccount : Nat
  adcBatt : Nat
  adcLM35 : Nat
  adcCurr : Int
  adcWinDir : Nat
  rainCount : Nat
  lightning : Nat
  windSpeed : Nat
  arr0 : Nat
  arr1 : Nat
  lastStatus : Bool
deriving DecidableEq, Repr

/-- Every variable holds a value of its C type. -/
def State.WF (s : State) : Prop :=
  s.max_samples < 65536 ∧ s.adccount < 256 ∧ s.adcBatt < 65536 ∧ s.adcLM35 < 65536 ∧
  -32768 ≤ s.adcCurr ∧ s.adcCurr < 32768 ∧ s.adcWinDir < 65536 ∧ s.rainCount < 65536 ∧
  s.lightning < 65536 ∧ s.windSpeed < 65536 ∧ s.arr0 < 256 ∧ s.arr1 < 256

instance (s : State) : Decidable s.WF := by
  unfold State.WF
  infer_instance

/-- The values of the variables at startup: max_samples = pow(2, 10 + ADC_OS) - 1 and
everything else zero. -/
def init : State :=
  { max_samples := (2 ^ (10 + ADC_OS) - 1) % 65536
    adccount := 0
    adcBatt := 0
    adcLM35 := 0
    adcCurr := 0
    adcWinDir := 0
    rainCount := 0
    lightning := 0
    windSpeed := 0
    arr0 := 0
    arr1 := 0
    lastStatus := false }

/-! ## takeSample -/

/-- The for loop of takeSample with oversampling factor k: the counter i is a byte, the
accumulator total an unsigned long, n counts the raw conversions performed so far (the next
conversion returns `read n`).  Returns the accumulator and the conversion count at loop exit,
or none when the fuel runs out first. -/
def sampleLoop (k : Nat) (read : Nat → Nat) : Nat → Nat → Nat → Nat → Option (Nat × Nat)
  | 0, _, _, _ => none
  | fuel + 1, i, n, total =>
    if i < 4 ^ k then
      sampleLoop k read fuel ((i + 1) % 256) (n + 1) ((total + read n) % 2 ^ 32)
    else
      some (total, n)

/-- The function takeSample for oversampling factor k, started when n0 conversions have been
performed: the returned word and the number of conversions performed when it returns. -/
def takeSample (k fuel : Nat) (read : Nat → Nat) (n0 : Nat) : Option (Nat × Nat) :=
  if k > 0 then
    match sampleLoop k read fuel 0 n0 0 with
    | none => none
    | some (total, n) => some ((total >>> k) % 65536, n)
  else
    some (read n0 % 65536, n0 + 1)

/-! ## Interrupt handlers, serialisation, reset -/

/-- The interrupt handler incLightning: lightning++ on a word. -/
def incLightning (s : State) : State :=
  { s with lightning := (s.lightning + 1) % 65536 }

/-- The interrupt handler incWindSpeed: windSpeed++ on a word. -/
def incWindSpeed (s : State) : State :=
  { s with windSpeed := (s.windSpeed + 1) % 65536 }

/-- The function toArray: split a word into the two bytes of arr. -/
def toArray (value : Nat) (s : State) : State :=
  { s with arr0 := (value >>> 8) % 256, arr1 := (value &&& 0xFF) % 256 }

/-- The function resetValues. -/
def resetValues (s : State) : State :=
  { s with lightning := 0, windSpeed := 0, rainCount := 0 }

/-- The call Wire.write(arr, 2): the two bytes of arr are appended to the transfer. -/
def Wire_write (s : State) (bus : List Nat) : List Nat :=
  bus ++ [s.arr0, s.arr1]

/-- The bus callback requestEvent: the state it leaves and the bytes it writes. -/
def requestEvent (s : State) : State × List Nat :=
  let s := toArray s.max_samples s
  let bus := Wire_write s []
  let s := toArray s.adcBatt s
  let bus := Wire_write s bus
  let s := toArray s.adcLM35 s
  let bus := Wire_write s bus
  let s := toArray (wordOfInt s.adcCurr) s
  let bus := Wire_write s bus
  let s := toArray s.adcWinDir s
  let bus := Wire_write s bus
  let s := toArray s.lightning s
  let bus := Wire_write s bus
  let s := toArray s.windSpeed s
  let bus := Wire_write s bus
  let s := toArray s.rainCount s
  let bus := Wire_write s bus
  (resetValues s, bus)

/-- The function softInt, where pin is the level returned by digitalRead(RAINFLIP). -/
def softInt (pin : Bool) (s : State) : State :=
  if s.lastStatus != pin then
    { s with rainCount := (s.rainCount + 1) % 65536, lastStatus := pin }
  else
    s

/-! ## loop -/

/-- One iteration of loop.  `adc pin n` is the result of the n-th raw conversion of this
iteration when it is taken on `pin`.  Returns the state after the iteration and the number
of raw conversions the iteration performed. -/
def loop (fuel : Nat) (adc : Nat → Nat → Nat) (s : State) : Option (State × Nat) :=
  if s.adccount ≥ 7 then
    let s := { s with adccount := 0 }
    match takeSample ADC_OS fuel (adc BATTPIN) 0 with
    | none => none
    | some (batt, n1) =>
      let s := { s with adcBatt := batt }
      match takeSample ADC_OS fuel (adc LM35) n1 with
      | none => none
      | some (temp, n2) =>
        let s := { s with adcLM35 := temp }
        match takeSample ADC_OS fuel (adc CURRENT) n2 with
        | none => none
        | some (curr, n3) =>
          let s := { s with adcCurr := intOfWord curr }
          match takeSample ADC_OS fuel (adc WINDDIRPIN) n3 with
          | none => none
          | some (wdir, n4) =>
            let s := { s with adcWinDir := wdir }
            some (s, n4)
  else
    some ({ s with adccount := (s.adccount + 1) % 256 }, 0)

/-! ## Runs of the firmware -/

/-- The entry points of the firmware.  loop, the two interrupt handlers and the bus callback
are the ones the running firmware has; softInt is included so that runs also cover calls of
the rain-flip poll. -/
inductive Event where
  | loop (adc : Nat → Nat → Nat)
  | incLightning
  | incWindSpeed
  | softInt (pin : Bool)
  | requestEvent

/-- What one event lets the outside observe. -/
inductive Obs where
  | tick (conversions : Nat)
  | transfer (bytes : List Nat)
  | quiet
deriving DecidableEq, Repr

/-- One event: the state it leaves and its observation. -/
def step (fuel : Nat) (e : Event) (s : State) : Option (State × Obs) :=
  match e with
  | Event.loop adc =>
    match loop fuel adc s with
    | none => none
    | some (t, n) => some (t, Obs.tick n)
  | Event.incLightning => some (incLightning s, Obs.quiet)
  | Event.incWindSpeed => some (incWindSpeed s, Obs.quiet)
  | Event.softInt pin => some (softInt pin s, Obs.quiet)
  | Event.requestEvent => some ((requestEvent s).1, Obs.transfer (requestEvent s).2)

/-- A run: the events in order; the final state and the observations in order. -/
def run (fuel : Nat) : List Event → State → Option (State × List Obs)
  | [], s => some (s, [])
  | e :: es, s =>
    match step fuel e s with
    | none => none
    | some (t, o) =>
      match run fuel es t with
      | none => none
      | some (u, os) => some (u, o :: os)

/-- The conversion counts of the loop iterations of an observation log, in order. -/
def ticks : List Obs → List Nat
  | [] => []
  | Obs.tick n :: os => n :: ticks os
  | _ :: os => ticks os

/-- Whether an event is a call of incLightning. -/
def Event.isLightning : Event → Bool
  | Event.incLightning => true
  | _ => false

/-- Whether an event is a call of incWindSpeed. -/
def Event.isWindSpeed : Event → Bool
  | Event.incWindSpeed => true
  | _ => false

/-- Whether an event is a bus transfer. -/
def Event.isRequest : Event → Bool
  | Event.requestEvent => true
  | _ => false

/-- Whether an event is a loop iteration. -/
def Event.isLoop : Event → Bool
  | Event.loop _ => true
  | _ => false

/-- The number of positions of a sequence of polled levels at which the level differs from
its predecessor, the predecessor of the first one being prev. -/
def transitions : Bool → List Bool → Nat
  | _, [] => 0
  | prev, l :: ls => (if prev != l then 1 else 0) + transitions l ls

/-- Polling the rain sensor once for each level of a sequence, in order. -/
def pollAll : List Bool → State → State
  | [], s => s
  | l :: ls, s => pollAll ls (softInt l s)

/-- The state of the fourth testable property of the specification. -/
def exampleState : State :=
  { max_samples := 8191
    adccount := 0
    adcBatt := 100
    adcLM35 := 200
    adcCurr := 50
    adcWinDir := 300
    rainCount := 1
    lightning := 2
    windSpeed := 5
    arr0 := 0
    arr1 := 0
    lastStatus := false }

/-- The word takeSample computes with the configured factor from the 16 conversions that
start at conversion n0: the 32 bit sum, shifted right by two, stored in a word. -/
def oversampled (read : Nat → Nat) (n0 : Nat) : Nat :=
  (((∑ j ∈ Finset.range 16, read (n0 + j)) % 2 ^ 32) >>> 2) % 65536

/-- The variables after a sampling pass over the inputs adc. -/
def sampled (adc : Nat → Nat → Nat) (s : State) : State :=
  { s with
    adccount := 0
    adcBatt := oversampled (adc BATTPIN) 0
    adcLM35 := oversampled (adc LM35) 16
    adcCurr := intOfWord (oversampled (adc CURRENT) 32)
    adcWinDir := oversampled (adc WINDDIRPIN) 48 }

/-- The result of one event once its sampling loops have enough fuel to finish. -/
def next (e : Event) (s : State) : State × Obs :=
  match e with
  | Event.loop adc =>
    if s.adccount ≥ 7 then (sampled adc s, Obs.tick 64)
    else ({ s with adccount := (s.adccount + 1) % 256 }, Obs.tick 0)
  | Event.incLightning => (incLightning s, Obs.quiet)
  | Event.incWindSpeed => (incWindSpeed s, Obs.quiet)
  | Event.softInt pin => (softInt pin s, Obs.quiet)
  | Event.requestEvent => ((requestEvent s).1, Obs.transfer (requestEvent s).2)

/-- The result of a run once its sampling loops have enough fuel to finish. -/
def exec : List Event → State → State × List Obs
  | [], s => (s, [])
  | e :: es, s => ((exec es (next e s).1).1, (next e s).2 :: (exec es (next e s).1).2)

/-- The i-th word of a transfer as the receiver decodes it: high byte first. -/
def wordAt (bytes : List Nat) (i : Nat) : Nat :=
  bytes.getD (2 * i) 0 * 256 + bytes.getD (2 * i + 1) 0

/-- The conversion counts of c consecutive loop iterations that start with tick counter a,
when sampling has period 8: a pass of 64 conversions when the counter stands at 7. -/
def cadence : Nat → Nat → List Nat
  | _, 0 => []
  | a, c + 1 => (if a % 8 = 7 then 64 else 0) :: cadence (a + 1) c

/-- A short sequence of events without a transfer: two lightning edges and one wind-speed
edge around a loop iteration and a rain poll. -/
def demoEvents : List Event :=
  [Event.incLightning, Event.loop (fun _ n => n), Event.incWindSpeed, Event.softInt true,
    Event.incLightning]

/-- A state whose rain counter holds the largest word and whose stored level is low. -/
def fullRain : State :=
  { init with rainCount := 65535 }

/-- Inputs of a loop iteration whose raw conversions all read zero. -/
def zeroAdc : Nat → Nat → Nat := fun _ _ => 0

/-- Whether a loop iteration with this conversion count was a sampling pass. -/
def isPass (n : Nat) : Bool := decide (0 < n)

/-- A state whose lightning counter holds the largest word. -/
def fullLightning : State :=
  { init with lightning := 65535 }

/-- A channel whose raw conversions all read zero. -/
def zeroRead : Nat → Nat := fun _ => 0

/-- A state in which the tick counter has reached the threshold of loop. -/
def dueState : State :=
  { exampleState with adccount := 7 }

/-- Inputs of a loop iteration with raw conversions of a 10 bit converter that differ from
pin to pin and from conversion to conversion. -/
def tenBitAdc : Nat → Nat → Nat := fun pin n => (pin * 61 + n * 7) % 1024

/-- A short sequence of events without a loop iteration: edges, a rain poll and a
transfer. -/
def quietEvents : List Event :=
  [Event.incLightning, Event.softInt true, Event.requestEvent, Event.incWindSpeed]

/-! ## Arithmetic of the byte split -/

theorem shift8_mod (v : Nat) (h : v < 65536) : (v >>> 8) % 256 = v / 256 := by
  rw [Nat.shiftRight_eq_div_pow]
  omega

theorem land255_mod (v : Nat) : (v &&& 0xFF) % 256 = v % 256 := by
  have h : v &&& 0xFF = v % 256 := Nat.and_pow_two_sub_one_eq_mod v 8
  rw [h]
  omega

/-! ## The sampling loop -/

theorem sampleLoop_spec (k : Nat) (read : Nat → Nat) (hk : 4 ^ k < 256) :
    ∀ (d fuel i n total : Nat), i + d = 4 ^ k → d < fuel → total < 2 ^ 32 →
      sampleLoop k read fuel i n total
        = some ((total + ∑ j ∈ Finset.range d, read (n + j)) % 2 ^ 32, n + d) := by
  intro d
  induction d with
  | zero =>
    intro fuel i n total hi hf ht
    obtain ⟨f, rfl⟩ : ∃ f, fuel = f + 1 := ⟨fuel - 1, by omega⟩
    have hlt : ¬ i < 4 ^ k := by omega
    simp only [sampleLoop, if_neg hlt, Finset.range_zero, Finset.sum_empty, Nat.add_zero,
      Nat.mod_eq_of_lt ht]
  | succ d ih =>
    intro fuel i n total hi hf ht
    obtain ⟨f, rfl⟩ : ∃ f, fuel = f + 1 := ⟨fuel - 1, by omega⟩
    have hlt : i < 4 ^ k := by omega
    have hi1 : (i + 1) % 256 = i + 1 := Nat.mod_eq_of_lt (by omega)
    have ht1 : (total + read n) % 2 ^ 32 < 2 ^ 32 := Nat.mod_lt _ (by norm_num)
    have hstep := ih f (i + 1) (n + 1) ((total + read n) % 2 ^ 32) (by omega) (by omega) ht1
    rw [sampleLoop, if_pos hlt, hi1, hstep, Finset.sum_range_succ']
    have hsum : ∑ j ∈ Finset.range d, read (n + 1 + j)
        = ∑ j ∈ Finset.range d, read (n + (j + 1)) := by
      apply Finset.sum_congr rfl
      intro j _
      congr 1
      omega
    rw [hsum]
    generalize (∑ j ∈ Finset.range d, read (n + (j + 1))) = S
    simp only [Nat.add_zero]
    congr 2
    · omega
    · omega

theorem takeSample_configured (fuel : Nat) (read : Nat → Nat) (n0 : Nat) (h : 17 ≤ fuel) :
    takeSample ADC_OS fuel read n0 = some (oversampled read n0, n0 + 16) := by
  have hk : (4 : Nat) ^ 2 < 256 := by norm_num
  have hl := sampleLoop_spec 2 read hk 16 fuel 0 n0 0 (by norm_num) (by omega) (by norm_num)
  simp only [Nat.zero_add] at hl
  simp only [takeSample, ADC_OS, oversampled]
  rw [if_pos (by norm_num), hl]

theorem sum16_le (read : Nat → Nat) (n0 : Nat) (hraw : ∀ n, read n ≤ 1023) :
    ∑ j ∈ Finset.range 16, read (n0 + j) ≤ 16368 := by
  have h := Finset.sum_le_card_nsmul (Finset.range 16) (fun j => read (n0 + j)) 1023
    (fun j _ => hraw (n0 + j))
  simpa using h

theorem oversampled_eq (read : Nat → Nat) (n0 : Nat) (hraw : ∀ n, read n ≤ 1023) :
    oversampled read n0 = (∑ j ∈ Finset.range 16, read (n0 + j)) >>> 2 := by
  have hs := sum16_le read n0 hraw
  unfold oversampled
  generalize (∑ j ∈ Finset.range 16, read (n0 + j)) = S at hs ⊢
  rw [Nat.mod_eq_of_lt (by omega : S < 2 ^ 32), Nat.shiftRight_eq_div_pow]
  omega

theorem loop_eq (fuel : Nat) (adc : Nat → Nat → Nat) (s : State) (h : 17 ≤ fuel) :
    loop fuel adc s =
      some (if s.adccount ≥ 7 then (sampled adc s, 64)
        else ({ s with adccount := (s.adccount + 1) % 256 }, 0)) := by
  unfold loop
  split
  · simp only [takeSample_configured _ _ _ h]
    rfl
  · rfl

theorem loop_frame (fuel : Nat) (adc : Nat → Nat → Nat) (s : State) (h : 17 ≤ fuel) :
    ∃ t n, loop fuel adc s = some (t, n) ∧ t.max_samples = s.max_samples
      ∧ t.rainCount = s.rainCount ∧ t.lastStatus = s.lastStatus := by
  by_cases h7 : s.adccount ≥ 7
  · exact ⟨sampled adc s, 64, by rw [loop_eq fuel adc s h, if_pos h7], rfl, rfl, rfl⟩
  · exact ⟨{ s with adccount := (s.adccount + 1) % 256 }, 0,
      by rw [loop_eq fuel adc s h, if_neg h7], rfl, rfl, rfl⟩

theorem requestEvent_raw (s : State) :
    (requestEvent s).2 =
      [(s.max_samples >>> 8) % 256, (s.max_samples &&& 0xFF) % 256,
       (s.adcBatt >>> 8) % 256, (s.adcBatt &&& 0xFF) % 256,
       (s.adcLM35 >>> 8) % 256, (s.adcLM35 &&& 0xFF) % 256,
       (wordOfInt s.adcCurr >>> 8) % 256, (wordOfInt s.adcCurr &&& 0xFF) % 256,
       (s.adcWinDir >>> 8) % 256, (s.adcWinDir &&& 0xFF) % 256,
       (s.lightning >>> 8) % 256, (s.lightning &&& 0xFF) % 256,
       (s.windSpeed >>> 8) % 256, (s.windSpeed &&& 0xFF) % 256,
       (s.rainCount >>> 8) % 256, (s.rainCount &&& 0xFF) % 256] := by
  simp [requestEvent, toArray, Wire_write]

theorem wordOfInt_lt (x : Int) : wordOfInt x < 65536 := by
  unfold wordOfInt
  omega

/-! ## The bus transfer -/

/-- C1: for every station state, requestEvent writes exactly 16 bytes, the words max_samples,
adcBatt, adcLM35, adcCurr, adcWinDir, lightning, windSpeed, rainCount in this order, each
as its high byte followed by its low byte; the state of the specification's example
serialises to the bytes the specification lists. -/
theorem requestEvent_writes_eight_words (s : State) (h : s.WF) :
    (requestEvent s).2 =
      [s.max_samples / 256, s.max_samples % 256,
       s.adcBatt / 256, s.adcBatt % 256,
       s.adcLM35 / 256, s.adcLM35 % 256,
       wordOfInt s.adcCurr / 256, wordOfInt s.adcCurr % 256,
       s.adcWinDir / 256, s.adcWinDir % 256,
       s.lightning / 256, s.lightning % 256,
       s.windSpeed / 256, s.windSpeed % 256,
       s.rainCount / 256, s.rainCount % 256]
    ∧ (requestEvent s).2.length = 16
    ∧ (requestEvent exampleState).2 =
      [0x1F, 0xFF, 0x00, 0x64, 0x00, 0xC8, 0x00, 0x32, 0x01, 0x2C, 0x00, 0x02, 0x00, 0x05,
        0x00, 0x01] := by
  obtain ⟨h1, _, h3, h4, _, _, h7, h8, h9, h10, _, _⟩ := h
  refine ⟨?_, ?_, by decide⟩
  · rw [requestEvent_raw]
    simp only [land255_mod, shift8_mod _ h1, shift8_mod _ h3, shift8_mod _ h4,
      shift8_mod _ (wordOfInt_lt s.adcCurr), shift8_mod _ h7, shift8_mod _ h8,
      shift8_mod _ h9, shift8_mod _ h10]
  · rw [requestEvent_raw]
    rfl

theorem requestEvent_writes_eight_words_witness :
    exampleState.WF ∧ (requestEvent exampleState).2.length = 16 :=
  ⟨by decide, (requestEvent_writes_eight_words exampleState (by decide)).2.1⟩

/-- C2: after requestEvent the three event counters are zero, and the four channel readings,
max_samples and adccount have the values they had before the call. -/
theorem requestEvent_resets_only_counters (s : State) :
    (requestEvent s).1.lightning = 0 ∧ (requestEvent s).1.windSpeed = 0
    ∧ (requestEvent s).1.rainCount = 0
    ∧ (requestEvent s).1.adcBatt = s.adcBatt ∧ (requestEvent s).1.adcLM35 = s.adcLM35
    ∧ (requestEvent s).1.adcCurr = s.adcCurr ∧ (requestEvent s).1.adcWinDir = s.adcWinDir
    ∧ (requestEvent s).1.max_samples = s.max_samples
    ∧ (requestEvent s).1.adccount = s.adccount := by
  simp [requestEvent, toArray, resetValues]

/-! ## Oversampling -/

/-- C5: with the configured factor ADC_OS = 2 and raw conversions of the 10 bit converter,
takeSample returns the sum of exactly 4^2 = 16 consecutive raw conversions shifted right by
2 bits; on a constant raw input v it returns v * 2^2; with factor 0 it returns one raw
conversion unmodified. -/
theorem takeSample_oversampling (fuel : Nat) (read : Nat → Nat) (n0 : Nat)
    (hfuel : 17 ≤ fuel) (hraw : ∀ n, read n ≤ 1023) :
    ADC_OS = 2
    ∧ takeSample ADC_OS fuel read n0
        = some ((∑ j ∈ Finset.range (4 ^ ADC_OS), read (n0 + j)) >>> ADC_OS, n0 + 4 ^ ADC_OS)
    ∧ (∀ v, v ≤ 1023 →
        takeSample ADC_OS fuel (fun _ => v) n0 = some (v * 2 ^ ADC_OS, n0 + 4 ^ ADC_OS))
    ∧ takeSample 0 fuel read n0 = some (read n0, n0 + 1) := by
  refine ⟨rfl, ?_, ?_, ?_⟩
  · rw [takeSample_configured fuel read n0 hfuel, oversampled_eq read n0 hraw]
    rfl
  · intro v hv
    rw [takeSample_configured fuel _ n0 hfuel, oversampled_eq _ n0 (fun _ => hv)]
    simp only [Finset.sum_const, Finset.card_range, smul_eq_mul, ADC_OS,
      Nat.shiftRight_eq_div_pow]
    congr 2
    omega
  · have h0 := hraw n0
    simp only [takeSample, gt_iff_lt, lt_self_iff_false, if_false]
    rw [Nat.mod_eq_of_lt (by omega)]

theorem takeSample_oversampling_witness :
    (∀ n, 1000 + n % 8 ≤ 1023)
    ∧ takeSample ADC_OS 17 (fun n => 1000 + n % 8) 0 = some (4014, 16)
    ∧ takeSample ADC_OS 17 (fun _ => 1023) 0 = some (4092, 16)
    ∧ takeSample 0 17 (fun n => 1000 + n % 8) 0 = some (1000, 1) := by
  have hraw : ∀ n, 1000 + n % 8 ≤ 1023 := fun n => by omega
  have h := takeSample_oversampling 17 (fun n => 1000 + n % 8) 0 (by decide) hraw
  refine ⟨hraw, ?_, ?_, ?_⟩
  · rw [h.2.1]
    decide
  · rw [h.2.2.1 1023 (by decide)]
    decide
  · rw [h.2.2.2]

theorem requestEvent_resets_zero (s : State) :
    (requestEvent s).1.lightning = 0 ∧ (requestEvent s).1.windSpeed = 0 := by
  simp [requestEvent, toArray, resetValues]

/-! ## Runs -/

theorem step_eq_next (fuel : Nat) (h : 17 ≤ fuel) (e : Event) (s : State) :
    step fuel e s = some (next e s) := by
  cases e with
  | loop adc =>
    simp only [step, next, loop_eq fuel adc s h]
    split <;> rfl
  | incLightning => rfl
  | incWindSpeed => rfl
  | softInt pin => rfl
  | requestEvent => rfl

theorem run_eq_exec (fuel : Nat) (h : 17 ≤ fuel) (evs : List Event) :
    ∀ s, run fuel evs s = some (exec evs s) := by
  induction evs with
  | nil => intro s; rfl
  | cons e es ih =>
    intro s
    simp only [run, step_eq_next fuel h e s, ih, exec]

theorem run_total (fuel : Nat) (h : 17 ≤ fuel) (evs : List Event) (s : State) :
    ∃ t log, run fuel evs s = some (t, log) ∧ t = (exec evs s).1 ∧ log = (exec evs s).2 :=
  ⟨_, _, run_eq_exec fuel h evs s, rfl, rfl⟩

theorem wordAt_max_samples (s : State) (h : s.max_samples < 65536) :
    wordAt (requestEvent s).2 0 = s.max_samples := by
  rw [requestEvent_raw]
  simp only [wordAt, Nat.reduceMul, Nat.reduceAdd, List.getD_cons_zero, List.getD_cons_succ,
    land255_mod, shift8_mod _ h]
  omega

theorem wordAt_lightning (s : State) (h : s.lightning < 65536) :
    wordAt (requestEvent s).2 5 = s.lightning := by
  rw [requestEvent_raw]
  simp only [wordAt, Nat.reduceMul, Nat.reduceAdd, List.getD_cons_zero, List.getD_cons_succ,
    land255_mod, shift8_mod _ h]
  omega

theorem wordAt_windSpeed (s : State) (h : s.windSpeed < 65536) :
    wordAt (requestEvent s).2 6 = s.windSpeed := by
  rw [requestEvent_raw]
  simp only [wordAt, Nat.reduceMul, Nat.reduceAdd, List.getD_cons_zero, List.getD_cons_succ,
    land255_mod, shift8_mod _ h]
  omega

theorem next_counters (e : Event) (s : State) (he : e.isRequest = false) :
    (next e s).1.lightning = (if e.isLightning then (s.lightning + 1) % 65536 else s.lightning)
    ∧ (next e s).1.windSpeed
        = (if e.isWindSpeed then (s.windSpeed + 1) % 65536 else s.windSpeed) := by
  cases e with
  | loop adc =>
    simp only [next, Event.isLightning, Event.isWindSpeed]
    split <;> simp [sampled]
  | incLightning => simp [next, incLightning, Event.isLightning, Event.isWindSpeed]
  | incWindSpeed => simp [next, incWindSpeed, Event.isLightning, Event.isWindSpeed]
  | softInt pin =>
    simp only [next, softInt, Event.isLightning, Event.isWindSpeed]
    split <;> simp
  | requestEvent => simp [Event.isRequest] at he

theorem exec_counters (evs : List Event) :
    ∀ s, s.lightning < 65536 → s.windSpeed < 65536 → (∀ e ∈ evs, e.isRequest = false) →
      (exec evs s).1.lightning = (s.lightning + evs.countP Event.isLightning) % 65536
      ∧ (exec evs s).1.windSpeed = (s.windSpeed + evs.countP Event.isWindSpeed) % 65536 := by
  induction evs with
  | nil =>
    intro s hl hw _
    simp only [exec, List.countP_nil, Nat.add_zero]
    omega
  | cons e es ih =>
    intro s hl hw hno
    obtain ⟨h1, h2⟩ := next_counters e s (hno e (List.mem_cons_self e es))
    have hl1 : (next e s).1.lightning < 65536 := by
      rw [h1]; split <;> omega
    have hw1 : (next e s).1.windSpeed < 65536 := by
      rw [h2]; split <;> omega
    obtain ⟨i1, i2⟩ := ih (next e s).1 hl1 hw1 (fun x hx => hno x (List.mem_cons_of_mem e hx))
    simp only [exec, List.countP_cons]
    rw [i1, i2, h1, h2]
    constructor
    · cases e.isLightning
      · simp
      · simp
        omega
    · cases e.isWindSpeed
      · simp
      · simp
        omega

/-! ## Counter conservation -/

/-- C3 (amended): if n calls of incLightning and m calls of incWindSpeed occur, in any order
and interleaved with loop iterations and rain polls, between two consecutive requestEvent
calls, the second requestEvent transmits n mod 2^16 as the lightning word and m mod 2^16 as
the wind-speed word (exactly n and m when they are below 65536), and after it both counters
are zero. -/
theorem counter_conservation (fuel : Nat) (hfuel : 17 ≤ fuel) (s0 : State) (evs : List Event)
    (hbetween : ∀ e ∈ evs, e.isRequest = false) :
    ∃ s log, run fuel evs (requestEvent s0).1 = some (s, log)
      ∧ wordAt (requestEvent s).2 5 = evs.countP Event.isLightning % 65536
      ∧ wordAt (requestEvent s).2 6 = evs.countP Event.isWindSpeed % 65536
      ∧ (evs.countP Event.isLightning < 65536 →
          wordAt (requestEvent s).2 5 = evs.countP Event.isLightning)
      ∧ (evs.countP Event.isWindSpeed < 65536 →
          wordAt (requestEvent s).2 6 = evs.countP Event.isWindSpeed)
      ∧ (requestEvent s).1.lightning = 0 ∧ (requestEvent s).1.windSpeed = 0 := by
  have h0 := requestEvent_resets_zero s0
  obtain ⟨hl, hw⟩ := exec_counters evs (requestEvent s0).1 (by omega) (by omega) hbetween
  rw [h0.1, Nat.zero_add] at hl
  rw [h0.2, Nat.zero_add] at hw
  have hl5 := wordAt_lightning (exec evs (requestEvent s0).1).1
    (by rw [hl]; exact Nat.mod_lt _ (by norm_num))
  have hw6 := wordAt_windSpeed (exec evs (requestEvent s0).1).1
    (by rw [hw]; exact Nat.mod_lt _ (by norm_num))
  have hz := requestEvent_resets_zero (exec evs (requestEvent s0).1).1
  refine ⟨_, _, run_eq_exec fuel hfuel evs _, ?_, ?_, ?_, ?_, hz.1, hz.2⟩
  · rw [hl5, hl]
  · rw [hw6, hw]
  · intro hn
    rw [hl5, hl, Nat.mod_eq_of_lt hn]
  · intro hm
    rw [hw6, hw, Nat.mod_eq_of_lt hm]

theorem counter_conservation_witness :
    (∀ e ∈ demoEvents, e.isRequest = false)
    ∧ ∃ s log, run 17 demoEvents (requestEvent exampleState).1 = some (s, log)
      ∧ wordAt (requestEvent s).2 5 = 2 ∧ wordAt (requestEvent s).2 6 = 1 := by
  have hno : ∀ e ∈ demoEvents, e.isRequest = false := by
    intro e he
    simp only [demoEvents, List.mem_cons, List.mem_singleton, List.not_mem_nil, or_false] at he
    rcases he with h | h | h | h | h <;> rw [h] <;> rfl
  obtain ⟨s, log, hrun, h5, h6, _⟩ :=
    counter_conservation 17 (by decide) exampleState demoEvents hno
  exact ⟨hno, s, log, hrun, h5, h6⟩

/-- C3 fails as stated at n = 65536: after 65536 calls of incLightning between two transfers
the second transfer carries 0 as its lightning word, not 65536. -/
theorem counter_conservation_wraps :
    (List.replicate 65536 Event.incLightning).countP Event.isLightning = 65536
    ∧ (∀ e ∈ List.replicate 65536 Event.incLightning, e.isRequest = false)
    ∧ ∃ s log, run 17 (List.replicate 65536 Event.incLightning) (requestEvent init).1
          = some (s, log)
        ∧ wordAt (requestEvent s).2 5 = 0
        ∧ wordAt (requestEvent s).2 5 ≠ 65536 := by
  have hc : (List.replicate 65536 Event.incLightning).countP Event.isLightning = 65536 := by
    rw [List.countP_replicate]
    rfl
  have hno : ∀ e ∈ List.replicate 65536 Event.incLightning, e.isRequest = false := by
    intro e he
    rw [List.eq_of_mem_replicate he]
    rfl
  have h0 := requestEvent_resets_zero init
  obtain ⟨hl, _⟩ := exec_counters (List.replicate 65536 Event.incLightning)
    (requestEvent init).1 (by omega) (by omega) hno
  rw [h0.1, Nat.zero_add, hc] at hl
  have hl0 : (exec (List.replicate 65536 Event.incLightning) (requestEvent init).1).1.lightning
      = 0 := by
    rw [hl]
  have h5 := wordAt_lightning
    (exec (List.replicate 65536 Event.incLightning) (requestEvent init).1).1 (by omega)
  rw [hl0] at h5
  obtain ⟨t, log, hrun, ht, _⟩ := run_total 17 (by decide)
    (List.replicate 65536 Event.incLightning) (requestEvent init).1
  rw [← ht] at h5
  refine ⟨hc, hno, t, log, hrun, h5, ?_⟩
  rw [h5]
  decide

/-! ## The rain-flip poll -/

theorem pollAll_rainCount (ls : List Bool) :
    ∀ s : State, s.rainCount < 65536 →
      (pollAll ls s).rainCount = (s.rainCount + transitions s.lastStatus ls) % 65536 := by
  induction ls with
  | nil =>
    intro s h
    simp only [pollAll, transitions, Nat.add_zero]
    omega
  | cons l ls ih =>
    intro s h
    by_cases hd : s.lastStatus = l
    · have hs : softInt l s = s := by simp [softInt, hd]
      simp only [pollAll, transitions, hs, ih s h, hd, bne_self_eq_false, Bool.false_eq_true,
        if_false, Nat.zero_add]
    · have hne : (s.lastStatus != l) = true := by simpa using hd
      have hs : softInt l s
          = { s with rainCount := (s.rainCount + 1) % 65536, lastStatus := l } := by
        simp [softInt, hne]
      have hlt : (s.rainCount + 1) % 65536 < 65536 := Nat.mod_lt _ (by norm_num)
      simp only [pollAll, transitions, hs, hne, if_true]
      rw [ih _ hlt]
      simp only
      omega

/-- C6 (amended): a call of softInt whose observed level equals the stored level changes
nothing; a call whose observed level differs sets the stored level to it and increments
rainCount by one modulo 2^16 (by exactly one when rainCount is below 65535); over any sequence
of polled levels rainCount becomes its old value plus the number of positions where the
level differs from its predecessor, modulo 2^16, the predecessor of the first level being
the stored level (false at startup). -/
theorem softInt_debounce (s : State) (pin : Bool) (ls : List Bool)
    (hword : s.rainCount < 65536) :
    (pin = s.lastStatus → softInt pin s = s)
    ∧ (pin ≠ s.lastStatus →
        softInt pin s = { s with rainCount := (s.rainCount + 1) % 65536, lastStatus := pin })
    ∧ (pin ≠ s.lastStatus → s.rainCount < 65535 →
        (softInt pin s).rainCount = s.rainCount + 1 ∧ (softInt pin s).lastStatus = pin)
    ∧ (pollAll ls s).rainCount = (s.rainCount + transitions s.lastStatus ls) % 65536
    ∧ (s.lastStatus = false →
        (pollAll ls s).rainCount = (s.rainCount + transitions false ls) % 65536) := by
  refine ⟨?_, ?_, ?_, pollAll_rainCount ls s hword, ?_⟩
  · intro h
    simp [softInt, h]
  · intro h
    have hne : (s.lastStatus != pin) = true := by
      simpa using fun hh : s.lastStatus = pin => h hh.symm
    simp [softInt, hne]
  · intro h hlt
    have hne : (s.lastStatus != pin) = true := by
      simpa using fun hh : s.lastStatus = pin => h hh.symm
    simp only [softInt, hne, if_true, and_true]
    omega
  · intro h
    rw [pollAll_rainCount ls s hword, h]

theorem softInt_debounce_witness :
    init.rainCount < 65536
    ∧ (pollAll [true, true, false, false, true] init).rainCount
        = (init.rainCount + transitions init.lastStatus [true, true, false, false, true])
            % 65536
    ∧ transitions init.lastStatus [true, true, false, false, true] = 3 :=
  ⟨by decide,
    (softInt_debounce init true [true, true, false, false, true] (by decide)).2.2.2.1,
    by decide⟩

/-- C6 fails as stated at rainCount = 65535: a poll that observes a changed level leaves the
rain counter at 0, which is not the old value plus one. -/
theorem softInt_wraps_at_65535 :
    fullRain.rainCount = 65535 ∧ fullRain.lastStatus = false
    ∧ (softInt true fullRain).rainCount = 0
    ∧ (softInt true fullRain).rainCount ≠ fullRain.rainCount + 1 := by
  decide

/-! ## Cadence of the sampling passes -/

theorem cadence_mod (c : Nat) : ∀ a, cadence (a % 8) c = cadence a c := by
  induction c with
  | zero => intro a; rfl
  | succ c ih =>
    intro a
    have h1 : cadence (a % 8 + 1) c = cadence (a + 1) c := by
      rw [← ih (a % 8 + 1), ← ih (a + 1)]
      congr 1
      omega
    simp only [cadence, h1, Nat.mod_mod]

theorem cadence_length (c : Nat) : ∀ a, (cadence a c).length = c := by
  induction c with
  | zero => intro a; rfl
  | succ c ih => intro a; simp [cadence, ih]

theorem cadence_getD (c : Nat) :
    ∀ a j, j < c → (cadence a c).getD j 0 = if (a + j) % 8 = 7 then 64 else 0 := by
  induction c with
  | zero => intro a j h; omega
  | succ c ih =>
    intro a j h
    cases j with
    | zero => simp [cadence]
    | succ j =>
      simp only [cadence, List.getD_cons_succ]
      rw [ih (a + 1) j (by omega)]
      have : a + 1 + j = a + (j + 1) := by omega
      rw [this]

theorem cadence_first_window (c : Nat) (a : Nat) (ha : a < 8) :
    ((cadence a (c + 8)).take 8).countP isPass = 1 := by
  interval_cases a <;> simp [cadence, isPass]

theorem cadence_window (i : Nat) :
    ∀ a c, i + 8 ≤ c → (((cadence a c).drop i).take 8).countP isPass = 1 := by
  induction i with
  | zero =>
    intro a c h
    obtain ⟨d, rfl⟩ : ∃ d, c = d + 8 := ⟨c - 8, by omega⟩
    rw [List.drop_zero, ← cadence_mod,
      cadence_first_window d (a % 8) (Nat.mod_lt _ (by norm_num))]
  | succ i ih =>
    intro a c h
    obtain ⟨d, rfl⟩ : ∃ d, c = d + 1 := ⟨c - 1, by omega⟩
    simp only [cadence, List.drop_succ_cons]
    exact ih (a + 1) d (by omega)

theorem next_adccount (e : Event) (s : State) (h : s.adccount ≤ 7) :
    (next e s).1.adccount = (if e.isLoop then (s.adccount + 1) % 8 else s.adccount)
    ∧ ticks ((next e s).2 :: []) = (if e.isLoop then [if s.adccount % 8 = 7 then 64 else 0]
        else []) := by
  cases e with
  | loop adc =>
    by_cases h7 : s.adccount ≥ 7
    · have h7eq : s.adccount = 7 := by omega
      simp [next, h7, sampled, Event.isLoop, ticks, h7eq]
    · have hm : s.adccount % 8 ≠ 7 := by omega
      simp only [next, if_neg h7, Event.isLoop, if_true, ticks, if_neg hm, and_true]
      omega
  | incLightning => simp [next, incLightning, Event.isLoop, ticks]
  | incWindSpeed => simp [next, incWindSpeed, Event.isLoop, ticks]
  | softInt pin =>
    simp only [next, softInt, Event.isLoop, ticks]
    split <;> simp
  | requestEvent => simp [next, requestEvent, resetValues, toArray, Event.isLoop, ticks]

theorem ticks_cons (o : Obs) (os : List Obs) : ticks (o :: os) = ticks [o] ++ ticks os := by
  cases o <;> simp [ticks]

theorem exec_ticks (evs : List Event) :
    ∀ s, s.adccount ≤ 7 →
      ticks (exec evs s).2 = cadence s.adccount (evs.countP Event.isLoop) := by
  induction evs with
  | nil => intro s _; rfl
  | cons e es ih =>
    intro s h
    obtain ⟨h1, h2⟩ := next_adccount e s h
    have h1le : (next e s).1.adccount ≤ 7 := by
      rw [h1]; split <;> omega
    simp only [exec, List.countP_cons]
    rw [ticks_cons, h2, ih _ h1le, h1]
    cases e.isLoop
    · simp
    · simp only [if_true, List.singleton_append, Nat.add_zero, cadence]
      rw [cadence_mod]

/-- C7 (amended): from the initial state and for every interleaving of loop iterations with
incLightning, incWindSpeed, rain polls and requestEvent calls, every loop iteration returns,
the iteration with index j (counted from 0) is a full re-sampling pass of 64 conversions
exactly when j mod 8 = 7 and performs no conversion otherwise, so that a pass occurs on
exactly one loop iteration out of every 8 consecutive loop iterations. -/
theorem epoch_cadence (fuel : Nat) (hfuel : 17 ≤ fuel) (evs : List Event) :
    ∃ s log, run fuel evs init = some (s, log)
      ∧ (ticks log).length = evs.countP Event.isLoop
      ∧ (∀ j, j < (ticks log).length →
          (ticks log).getD j 0 = if j % 8 = 7 then 64 else 0)
      ∧ (∀ i, i + 8 ≤ (ticks log).length →
          (((ticks log).drop i).take 8).countP isPass = 1) := by
  have ht := exec_ticks evs init (by decide)
  have h0 : init.adccount = 0 := rfl
  rw [h0] at ht
  refine ⟨_, _, run_eq_exec fuel hfuel evs init, ?_, ?_, ?_⟩
  · rw [ht, cadence_length]
  · intro j hj
    rw [ht] at hj ⊢
    rw [cadence_length] at hj
    rw [cadence_getD _ 0 j hj, Nat.zero_add]
  · intro i hi
    rw [ht] at hi ⊢
    rw [cadence_length] at hi
    exact cadence_window i 0 _ hi

theorem epoch_cadence_witness :
    ∃ s log, run 17 (List.replicate 16 (Event.loop zeroAdc)) init = some (s, log)
      ∧ (ticks log).length = (List.replicate 16 (Event.loop zeroAdc)).countP Event.isLoop
      ∧ (((ticks log).drop 3).take 8).countP isPass = 1 := by
  obtain ⟨s, log, hrun, hlen, _, hwin⟩ :=
    epoch_cadence 17 (by decide) (List.replicate 16 (Event.loop zeroAdc))
  refine ⟨s, log, hrun, hlen, hwin 3 ?_⟩
  rw [hlen, List.countP_replicate]
  decide

/-- C7 fails as stated with N = 7: the first seven loop iterations after startup contain no
sampling pass at all; the first pass is the eighth iteration. -/
theorem no_pass_in_first_seven_ticks :
    ∃ s log, run 17 (List.replicate 8 (Event.loop zeroAdc)) init = some (s, log)
      ∧ ticks log = [0, 0, 0, 0, 0, 0, 0, 64]
      ∧ ((ticks log).take 7).countP isPass = 0 :=
  ⟨_, _, rfl, rfl, rfl⟩

/-! ## The loop and the rain sensor -/

/-- C8 (the code at the failing input): a loop iteration returns and leaves rainCount and the
stored rain level as they were, in every state and for all inputs, although a rain poll
observing a changed level would count it: loop does not call softInt. -/
theorem loop_never_polls_rain (adc : Nat → Nat → Nat) (s : State) :
    ∃ t n, loop 17 adc s = some (t, n)
      ∧ t.rainCount = s.rainCount ∧ t.lastStatus = s.lastStatus
      ∧ (softInt (!s.lastStatus) s).rainCount = (s.rainCount + 1) % 65536
      ∧ (softInt true init).rainCount = 1 := by
  obtain ⟨t, n, hrun, _, hr, hl⟩ := loop_frame 17 adc s (by decide)
  refine ⟨t, n, hrun, hr, hl, ?_, by decide⟩
  cases h : s.lastStatus <;> simp [softInt, h]

/-! ## The resolution constant -/

theorem next_max_samples (e : Event) (s : State) :
    (next e s).1.max_samples = s.max_samples
    ∧ ∀ bytes, (next e s).2 = Obs.transfer bytes → bytes = (requestEvent s).2 := by
  cases e with
  | loop adc =>
    simp only [next]
    split <;> simp [sampled]
  | incLightning => simp [next, incLightning]
  | incWindSpeed => simp [next, incWindSpeed]
  | softInt pin =>
    simp only [next, softInt]
    split <;> simp
  | requestEvent =>
    refine ⟨by simp [next, requestEvent, resetValues, toArray], ?_⟩
    intro bytes h
    simp only [next, Obs.transfer.injEq] at h
    exact h.symm

theorem exec_max_samples (evs : List Event) :
    ∀ s, (exec evs s).1.max_samples = s.max_samples
      ∧ ∀ bytes, Obs.transfer bytes ∈ (exec evs s).2 →
          ∃ t : State, t.max_samples = s.max_samples ∧ bytes = (requestEvent t).2 := by
  induction evs with
  | nil =>
    intro s
    exact ⟨rfl, fun bytes h => by simp [exec] at h⟩
  | cons e es ih =>
    intro s
    obtain ⟨h1, h2⟩ := next_max_samples e s
    obtain ⟨i1, i2⟩ := ih (next e s).1
    refine ⟨by simp only [exec]; rw [i1, h1], ?_⟩
    intro bytes hb
    simp only [exec, List.mem_cons] at hb
    rcases hb with hb | hb
    · exact ⟨s, rfl, h2 bytes hb.symm⟩
    · obtain ⟨t, ht, hbt⟩ := i2 bytes hb
      exact ⟨t, by rw [ht, h1], hbt⟩

theorem first_bytes (t : State) :
    (requestEvent t).2.take 2 = [(t.max_samples >>> 8) % 256, (t.max_samples &&& 0xFF) % 256] := by
  rw [requestEvent_raw]
  rfl

theorem init_max_samples : init.max_samples = 4095 := by decide

/-- C9: max_samples is 2^(10 + ADC_OS) - 1 at startup; loop (which returns), incLightning,
incWindSpeed, softInt, resetValues and requestEvent leave it unchanged (takeSample has no
access to it); so after every run from the initial state it still has this value and every
transfer of the run carries it as its first word. -/
theorem max_samples_immutable (fuel : Nat) (hfuel : 17 ≤ fuel) (evs : List Event) :
    init.max_samples = 2 ^ (10 + ADC_OS) - 1
    ∧ (∀ (s : State) (adc : Nat → Nat → Nat),
        ∃ t n, loop fuel adc s = some (t, n) ∧ t.max_samples = s.max_samples)
    ∧ (∀ (s : State) (pin : Bool),
        (incLightning s).max_samples = s.max_samples
        ∧ (incWindSpeed s).max_samples = s.max_samples
        ∧ (softInt pin s).max_samples = s.max_samples
        ∧ (resetValues s).max_samples = s.max_samples
        ∧ (requestEvent s).1.max_samples = s.max_samples)
    ∧ ∃ s log, run fuel evs init = some (s, log)
        ∧ s.max_samples = 2 ^ (10 + ADC_OS) - 1
        ∧ ∀ bytes, Obs.transfer bytes ∈ log → wordAt bytes 0 = 2 ^ (10 + ADC_OS) - 1 := by
  refine ⟨by decide, ?_, ?_, ?_⟩
  · intro s adc
    obtain ⟨t, n, hrun, hm, _⟩ := loop_frame fuel adc s hfuel
    exact ⟨t, n, hrun, hm⟩
  · intro s pin
    refine ⟨rfl, rfl, ?_, rfl, by simp [requestEvent, resetValues, toArray]⟩
    simp only [softInt]
    split <;> rfl
  · obtain ⟨h1, h2⟩ := exec_max_samples evs init
    refine ⟨_, _, run_eq_exec fuel hfuel evs init, ?_, ?_⟩
    · rw [h1]; decide
    · intro bytes hb
      obtain ⟨t, ht, rfl⟩ := h2 bytes hb
      rw [wordAt_max_samples t (by rw [ht]; decide), ht]
      decide

theorem max_samples_immutable_witness :
    ∃ s log, run 17 [Event.incLightning, Event.requestEvent, Event.loop zeroAdc,
        Event.requestEvent] init = some (s, log)
      ∧ s.max_samples = 2 ^ (10 + ADC_OS) - 1
      ∧ ∀ bytes, Obs.transfer bytes ∈ log → wordAt bytes 0 = 2 ^ (10 + ADC_OS) - 1 :=
  (max_samples_immutable 17 (by decide) [Event.incLightning, Event.requestEvent,
    Event.loop zeroAdc, Event.requestEvent]).2.2.2

/-- C10 (amended): with ADC_OS = 2 over the 10 bit converter the resolution constant computed
at startup is 4095, and the first two bytes of every transfer of every run from the initial
state are 0x0F, 0xFF. -/
theorem resolution_constant_is_4095 (fuel : Nat) (hfuel : 17 ≤ fuel) (evs : List Event) :
    ADC_OS = 2 ∧ init.max_samples = 4095
    ∧ ∃ s log, run fuel evs init = some (s, log)
        ∧ ∀ bytes, Obs.transfer bytes ∈ log → bytes.take 2 = [0x0F, 0xFF] := by
  refine ⟨rfl, by decide, _, _, run_eq_exec fuel hfuel evs init, ?_⟩
  intro bytes hb
  obtain ⟨t, ht, rfl⟩ := (exec_max_samples evs init).2 bytes hb
  rw [first_bytes, ht, init_max_samples]
  decide

theorem resolution_constant_is_4095_witness :
    ∃ s log, run 17 [Event.requestEvent, Event.loop zeroAdc, Event.requestEvent] init
        = some (s, log)
      ∧ ∀ bytes, Obs.transfer bytes ∈ log → bytes.take 2 = [0x0F, 0xFF] :=
  (resolution_constant_is_4095 17 (by decide)
    [Event.requestEvent, Event.loop zeroAdc, Event.requestEvent]).2.2

/-- C10 fails as stated: the resolution constant computed at startup is not 8191 and the
first transfer after startup does not begin with 0x1F, 0xFF. -/
theorem resolution_constant_is_not_8191 :
    ADC_OS = 2 ∧ init.max_samples ≠ 8191
    ∧ (requestEvent init).2.take 2 = [0x0F, 0xFF]
    ∧ (requestEvent init).2.take 2 ≠ [0x1F, 0xFF] := by
  decide

/-! ## The interrupt handlers -/

/-- C11 (amended): incLightning increases lightning by one modulo 2^16 (by exactly one when
it is below 65535) and leaves windSpeed, rainCount, the four channel readings, adccount,
max_samples and every other variable unchanged; incWindSpeed does the same for windSpeed. -/
theorem interrupt_handlers_frame (s : State) :
    (incLightning s).lightning = (s.lightning + 1) % 65536
    ∧ (s.lightning < 65535 → (incLightning s).lightning = s.lightning + 1)
    ∧ (incLightning s).windSpeed = s.windSpeed ∧ (incLightning s).rainCount = s.rainCount
    ∧ (incLightning s).adcBatt = s.adcBatt ∧ (incLightning s).adcLM35 = s.adcLM35
    ∧ (incLightning s).adcCurr = s.adcCurr ∧ (incLightning s).adcWinDir = s.adcWinDir
    ∧ (incLightning s).adccount = s.adccount ∧ (incLightning s).max_samples = s.max_samples
    ∧ (incLightning s).arr0 = s.arr0 ∧ (incLightning s).arr1 = s.arr1
    ∧ (incLightning s).lastStatus = s.lastStatus
    ∧ (incWindSpeed s).windSpeed = (s.windSpeed + 1) % 65536
    ∧ (s.windSpeed < 65535 → (incWindSpeed s).windSpeed = s.windSpeed + 1)
    ∧ (incWindSpeed s).lightning = s.lightning ∧ (incWindSpeed s).rainCount = s.rainCount
    ∧ (incWindSpeed s).adcBatt = s.adcBatt ∧ (incWindSpeed s).adcLM35 = s.adcLM35
    ∧ (incWindSpeed s).adcCurr = s.adcCurr ∧ (incWindSpeed s).adcWinDir = s.adcWinDir
    ∧ (incWindSpeed s).adccount = s.adccount ∧ (incWindSpeed s).max_samples = s.max_samples
    ∧ (incWindSpeed s).arr0 = s.arr0 ∧ (incWindSpeed s).arr1 = s.arr1
    ∧ (incWindSpeed s).lastStatus = s.lastStatus := by
  refine ⟨rfl, ?_, rfl, rfl, rfl, rfl, rfl, rfl, rfl, rfl, rfl, rfl, rfl, rfl, ?_, rfl, rfl,
    rfl, rfl, rfl, rfl, rfl, rfl, rfl, rfl, rfl⟩
  · intro h
    simp only [incLightning]
    omega
  · intro h
    simp only [incWindSpeed]
    omega

theorem interrupt_handlers_frame_witness :
    exampleState.lightning < 65535 ∧ exampleState.windSpeed < 65535
    ∧ (incLightning exampleState).lightning = exampleState.lightning + 1
    ∧ (incWindSpeed exampleState).windSpeed = exampleState.windSpeed + 1 :=
  ⟨by decide, by decide,
    (interrupt_handlers_frame exampleState).2.1 (by decide),
    (interrupt_handlers_frame exampleState).2.2.2.2.2.2.2.2.2.2.2.2.2.2.1 (by decide)⟩

/-- C11 fails as stated at lightning = 65535: incLightning leaves 0, not the old value plus
one. -/
theorem incLightning_wraps_at_65535 :
    fullLightning.WF ∧ fullLightning.lightning = 65535
    ∧ (incLightning fullLightning).lightning = 0
    ∧ (incLightning fullLightning).lightning ≠ fullLightning.lightning + 1 := by
  decide

/-! ## Monotonicity of the counters -/

theorem next_counter_cases (e : Event) (s : State) :
    (e.isRequest = false →
      ((next e s).1.lightning = s.lightning
          ∨ (next e s).1.lightning = (s.lightning + 1) % 65536)
      ∧ ((next e s).1.windSpeed = s.windSpeed
          ∨ (next e s).1.windSpeed = (s.windSpeed + 1) % 65536)
      ∧ ((next e s).1.rainCount = s.rainCount
          ∨ (next e s).1.rainCount = (s.rainCount + 1) % 65536))
    ∧ (e.isRequest = true →
        (next e s).1.lightning = 0 ∧ (next e s).1.windSpeed = 0 ∧ (next e s).1.rainCount = 0)
    ∧ (e.isLoop = true →
        (next e s).1.lightning = s.lightning ∧ (next e s).1.windSpeed = s.windSpeed
        ∧ (next e s).1.rainCount = s.rainCount) := by
  cases e with
  | loop adc =>
    simp only [next, Event.isRequest, Event.isLoop]
    split <;> simp [sampled]
  | incLightning => simp [next, incLightning, Event.isRequest, Event.isLoop]
  | incWindSpeed => simp [next, incWindSpeed, Event.isRequest, Event.isLoop]
  | softInt pin =>
    simp only [next, softInt, Event.isRequest, Event.isLoop]
    split <;> simp
  | requestEvent => simp [next, requestEvent, resetValues, toArray, Event.isRequest, Event.isLoop]

theorem exec_counter_bounds (evs : List Event) :
    ∀ s : State, s.lightning < 65536 → s.windSpeed < 65536 → s.rainCount < 65536 →
      (exec evs s).1.lightning < 65536 ∧ (exec evs s).1.windSpeed < 65536
      ∧ (exec evs s).1.rainCount < 65536 := by
  induction evs with
  | nil => intro s hl hw hr; exact ⟨hl, hw, hr⟩
  | cons e es ih =>
    intro s hl hw hr
    obtain ⟨hn, hq, _⟩ := next_counter_cases e s
    simp only [exec]
    cases he : e.isRequest with
    | false =>
      obtain ⟨h1, h2, h3⟩ := hn he
      exact ih _ (by rcases h1 with h | h <;> omega) (by rcases h2 with h | h <;> omega)
        (by rcases h3 with h | h <;> omega)
    | true =>
      obtain ⟨h1, h2, h3⟩ := hq he
      exact ih _ (by omega) (by omega) (by omega)

theorem next_rain_tied (e : Event) (s : State) (he : e.isRequest = false) :
    (next e s).1.rainCount = s.rainCount
    ∨ ∃ pin, e = Event.softInt pin ∧ s.lastStatus ≠ pin
        ∧ (next e s).1.rainCount = (s.rainCount + 1) % 65536 := by
  cases e with
  | loop adc =>
    left
    simp only [next]
    split <;> rfl
  | incLightning => left; rfl
  | incWindSpeed => left; rfl
  | softInt pin =>
    by_cases hd : s.lastStatus = pin
    · left
      simp [next, softInt, hd]
    · right
      have hne : (s.lastStatus != pin) = true := by simpa using hd
      exact ⟨pin, rfl, hd, by simp [next, softInt, hne]⟩
  | requestEvent => simp [Event.isRequest] at he

/-- C12 (amended): in every state reachable from the initial state, a step other than a
transfer (a loop iteration, incLightning, incWindSpeed, softInt) returns and leaves each of
lightning, windSpeed and rainCount greater than or equal to its previous value, except that
the step which increments a counter holding 65535 (incLightning for lightning, incWindSpeed
for windSpeed, a softInt call that observes a changed level for rainCount) wraps that
counter to zero; incLightning and incWindSpeed increment their counter by one modulo 2^16;
requestEvent sets all three counters to zero. -/
theorem counters_monotone (fuel : Nat) (hfuel : 17 ≤ fuel) (evs : List Event) (e : Event)
    (he : e.isRequest = false) :
    ∃ s log t o, run fuel evs init = some (s, log) ∧ step fuel e s = some (t, o)
      ∧ (s.lightning ≤ t.lightning
          ∨ (e.isLightning = true ∧ s.lightning = 65535 ∧ t.lightning = 0))
      ∧ (s.windSpeed ≤ t.windSpeed
          ∨ (e.isWindSpeed = true ∧ s.windSpeed = 65535 ∧ t.windSpeed = 0))
      ∧ (s.rainCount ≤ t.rainCount
          ∨ (∃ pin, e = Event.softInt pin ∧ s.lastStatus ≠ pin
              ∧ s.rainCount = 65535 ∧ t.rainCount = 0))
      ∧ (e.isLightning = true → t.lightning = (s.lightning + 1) % 65536)
      ∧ (e.isWindSpeed = true → t.windSpeed = (s.windSpeed + 1) % 65536)
      ∧ (requestEvent s).1.lightning = 0 ∧ (requestEvent s).1.windSpeed = 0
      ∧ (requestEvent s).1.rainCount = 0 := by
  obtain ⟨s, log, hrun, hs, _⟩ := run_total fuel hfuel evs init
  obtain ⟨bl, bw, br⟩ := exec_counter_bounds evs init (by decide) (by decide) (by decide)
  rw [← hs] at bl bw br
  obtain ⟨h1, h2⟩ := next_counters e s he
  have h3 := next_rain_tied e s he
  refine ⟨s, log, (next e s).1, (next e s).2, hrun, step_eq_next fuel hfuel e s, ?_, ?_, ?_,
    ?_, ?_, ?_⟩
  · rw [h1]
    cases hl : e.isLightning
    · left; simp
    · by_cases h65 : s.lightning = 65535
      · right
        exact ⟨rfl, h65, by simp [h65]⟩
      · left
        simp only [if_true]
        omega
  · rw [h2]
    cases hw : e.isWindSpeed
    · left; simp
    · by_cases h65 : s.windSpeed = 65535
      · right
        exact ⟨rfl, h65, by simp [h65]⟩
      · left
        simp only [if_true]
        omega
  · rcases h3 with h | ⟨pin, hp, hd, hr⟩
    · left; omega
    · by_cases h65 : s.rainCount = 65535
      · right
        exact ⟨pin, hp, hd, h65, by rw [hr, h65]⟩
      · left
        omega
  · intro hl
    rw [h1, hl, if_pos rfl]
  · intro hw
    rw [h2, hw, if_pos rfl]
  · simp [requestEvent, resetValues, toArray]

theorem counters_monotone_witness :
    Event.isRequest Event.incLightning = false
    ∧ ∃ s log t o, run 17 demoEvents init = some (s, log)
        ∧ step 17 Event.incLightning s = some (t, o)
        ∧ s.lightning = 2 ∧ t.lightning = 3 ∧ s.lightning ≤ t.lightning
        ∧ s.windSpeed ≤ t.windSpeed ∧ s.rainCount ≤ t.rainCount := by
  obtain ⟨s, log, t, o, hrun, hstep, h1, h2, h3, hinc, _⟩ :=
    counters_monotone 17 (by decide) demoEvents Event.incLightning rfl
  have hexec := run_eq_exec 17 (by decide) demoEvents init
  rw [hrun] at hexec
  have hs : s = (exec demoEvents init).1 := congrArg Prod.fst (Option.some.inj hexec)
  have hs2 : s.lightning = 2 := by
    rw [hs]
    decide
  have ht3 : t.lightning = 3 := by
    rw [hinc rfl, hs2]
  have hw : s.windSpeed = 1 := by
    rw [hs]
    decide
  have hr : s.rainCount = 1 := by
    rw [hs]
    decide
  refine ⟨rfl, s, log, t, o, hrun, hstep, hs2, ht3, by omega, ?_, ?_⟩
  · rcases h2 with h | ⟨_, h, _⟩
    · exact h
    · omega
  · rcases h3 with h | ⟨_, _, _, h, _⟩
    · exact h
    · omega

/-- C12 fails as stated: after 65535 calls of incLightning from the initial state the
lightning counter holds 65535, and one more call of incLightning, a step that is not a
transfer, leaves it at 0, below its previous value. -/
theorem lightning_drops_without_transfer :
    ∃ s log t, run 17 (List.replicate 65535 Event.incLightning) init = some (s, log)
      ∧ s.lightning = 65535
      ∧ step 17 Event.incLightning s = some (t, Obs.quiet)
      ∧ t.lightning = 0 ∧ t.lightning < s.lightning := by
  have hc : (List.replicate 65535 Event.incLightning).countP Event.isLightning = 65535 := by
    rw [List.countP_replicate]
    rfl
  have hno : ∀ e ∈ List.replicate 65535 Event.incLightning, e.isRequest = false := by
    intro e he
    rw [List.eq_of_mem_replicate he]
    rfl
  obtain ⟨hl, _⟩ := exec_counters (List.replicate 65535 Event.incLightning) init
    (by decide) (by decide) hno
  rw [hc] at hl
  obtain ⟨s, log, hrun, hs, _⟩ := run_total 17 (by decide)
    (List.replicate 65535 Event.incLightning) init
  rw [← hs] at hl
  have hl1 : s.lightning = 65535 := by
    rw [hl]
    decide
  have ht : (incLightning s).lightning = 0 := by
    simp only [incLightning, hl1]
  refine ⟨s, log, incLightning s, hrun, hl1, rfl, ht, ?_⟩
  rw [ht, hl1]
  decide

/-! ## The byte split -/

/-- C13: for every 16 bit word value, toArray leaves value / 256 in arr[0] and value mod 256
in arr[1], so arr[0] * 256 + arr[1] = value, and two words with the same byte pair are
equal. -/
theorem toArray_lossless (value : Nat) (s : State) (hword : value < 65536) :
    (toArray value s).arr0 = value / 256
    ∧ (toArray value s).arr1 = value % 256
    ∧ (toArray value s).arr0 * 256 + (toArray value s).arr1 = value
    ∧ (toArray value s).arr0 < 256 ∧ (toArray value s).arr1 < 256
    ∧ ∀ other u, other < 65536 → (toArray other u).arr0 = (toArray value s).arr0 →
        (toArray other u).arr1 = (toArray value s).arr1 → other = value := by
  have h0 : (toArray value s).arr0 = value / 256 := shift8_mod value hword
  have h1 : (toArray value s).arr1 = value % 256 := land255_mod value
  refine ⟨h0, h1, ?_, ?_, ?_, ?_⟩
  · rw [h0, h1]; omega
  · rw [h0]; omega
  · rw [h1]; omega
  · intro other u ho e0 e1
    have g0 : (toArray other u).arr0 = other / 256 := shift8_mod other ho
    have g1 : (toArray other u).arr1 = other % 256 := land255_mod other
    rw [g0, h0] at e0
    rw [g1, h1] at e1
    omega

theorem toArray_lossless_witness :
    (300 : Nat) < 65536
    ∧ (toArray 300 init).arr0 = 1 ∧ (toArray 300 init).arr1 = 44 := by
  obtain ⟨h0, h1, _⟩ := toArray_lossless 300 init (by decide)
  exact ⟨by decide, h0, h1⟩

/-! ## The sampling step of loop -/

theorem oversampled_le (read : Nat → Nat) (n0 : Nat) (hraw : ∀ n, read n ≤ 1023) :
    oversampled read n0 ≤ 4092 := by
  have hs := sum16_le read n0 hraw
  rw [oversampled_eq read n0 hraw, Nat.shiftRight_eq_div_pow]
  omega

theorem oversampled_lt (read : Nat → Nat) (n0 : Nat) : oversampled read n0 < 65536 := by
  unfold oversampled
  exact Nat.mod_lt _ (by norm_num)

theorem intOfWord_small (w : Nat) (h : w < 32768) : intOfWord w = (w : Int) := by
  unfold intOfWord
  have hm : w % 65536 = w := Nat.mod_eq_of_lt (by omega)
  rw [hm, if_pos h]

theorem wordOfInt_natCast (w : Nat) (h : w < 65536) : wordOfInt (w : Int) = w := by
  unfold wordOfInt
  omega

/-- C14: on a loop iteration where adccount has reached 7 the tick counter is reset to zero
and the four readings are recomputed by takeSample in the order battery (A0, conversions
0..15 of the pass), temperature (A1, 16..31), current (A2, 32..47), wind direction (A3,
48..63), each from its own pin, while lightning, windSpeed and rainCount keep their values;
on every other loop iteration adccount increases by one and the four readings keep their
values. -/
theorem loop_sampling_step (fuel : Nat) (hfuel : 17 ≤ fuel) (adc : Nat → Nat → Nat)
    (s : State) :
    BATTPIN = 14 ∧ LM35 = 15 ∧ CURRENT = 16 ∧ WINDDIRPIN = 17
    ∧ (7 ≤ s.adccount →
        ∃ batt temp curr wdir t,
          takeSample ADC_OS fuel (adc BATTPIN) 0 = some (batt, 16)
          ∧ takeSample ADC_OS fuel (adc LM35) 16 = some (temp, 32)
          ∧ takeSample ADC_OS fuel (adc CURRENT) 32 = some (curr, 48)
          ∧ takeSample ADC_OS fuel (adc WINDDIRPIN) 48 = some (wdir, 64)
          ∧ loop fuel adc s = some (t, 64)
          ∧ t.adccount = 0
          ∧ t.adcBatt = batt ∧ t.adcLM35 = temp ∧ t.adcCurr = intOfWord curr
          ∧ t.adcWinDir = wdir
          ∧ ((∀ n, adc CURRENT n ≤ 1023) → t.adcCurr = (curr : Int))
          ∧ t.lightning = s.lightning ∧ t.windSpeed = s.windSpeed
          ∧ t.rainCount = s.rainCount)
    ∧ (s.adccount < 7 →
        ∃ t, loop fuel adc s = some (t, 0)
          ∧ t.adccount = s.adccount + 1
          ∧ t.adcBatt = s.adcBatt ∧ t.adcLM35 = s.adcLM35 ∧ t.adcCurr = s.adcCurr
          ∧ t.adcWinDir = s.adcWinDir) := by
  refine ⟨rfl, rfl, rfl, rfl, ?_, ?_⟩
  · intro h7
    refine ⟨_, _, _, _, sampled adc s, takeSample_configured fuel _ 0 hfuel,
      takeSample_configured fuel _ 16 hfuel, takeSample_configured fuel _ 32 hfuel,
      takeSample_configured fuel _ 48 hfuel, ?_, rfl, rfl, rfl, rfl, rfl, ?_, rfl, rfl, rfl⟩
    · rw [loop_eq fuel adc s hfuel, if_pos h7]
    · intro hraw
      have hle := oversampled_le (adc CURRENT) 32 hraw
      exact intOfWord_small _ (by omega)
  · intro h7
    refine ⟨{ s with adccount := (s.adccount + 1) % 256 }, ?_, ?_, rfl, rfl, rfl, rfl⟩
    · rw [loop_eq fuel adc s hfuel, if_neg (by omega)]
    · show (s.adccount + 1) % 256 = s.adccount + 1
      omega

theorem loop_sampling_step_witness :
    7 ≤ dueState.adccount ∧ init.adccount < 7
    ∧ (∃ t, loop 17 tenBitAdc dueState = some (t, 64) ∧ t.adccount = 0
        ∧ t.lightning = dueState.lightning)
    ∧ (∃ t, loop 17 tenBitAdc init = some (t, 0) ∧ t.adccount = init.adccount + 1) := by
  obtain ⟨_, _, _, _, hs, hn⟩ := loop_sampling_step 17 (by decide) tenBitAdc dueState
  obtain ⟨_, _, _, _, _, hn0⟩ := loop_sampling_step 17 (by decide) tenBitAdc init
  obtain ⟨_, _, _, _, t, _, _, _, _, hl, h0, _, _, _, _, _, hli, _⟩ := hs (by decide)
  obtain ⟨u, hu, hc, _⟩ := hn0 (by decide)
  exact ⟨by decide, by decide, ⟨t, hl, h0, hli⟩, ⟨u, hu, hc⟩⟩

/-! ## Termination of the sampler -/

theorem sampleLoop_diverges (k : Nat) (read : Nat → Nat) (hk : 256 ≤ 4 ^ k) :
    ∀ fuel i n total, i < 256 → sampleLoop k read fuel i n total = none := by
  intro fuel
  induction fuel with
  | zero => intro i n total _; rfl
  | succ f ih =>
    intro i n total hi
    rw [sampleLoop, if_pos (by omega)]
    exact ih _ _ _ (Nat.mod_lt _ (by norm_num))

theorem sampleLoop_short (k : Nat) (read : Nat → Nat) (hk : 4 ^ k < 256) :
    ∀ fuel i n total, i + fuel ≤ 4 ^ k → sampleLoop k read fuel i n total = none := by
  intro fuel
  induction fuel with
  | zero => intro i n total _; rfl
  | succ f ih =>
    intro i n total hi
    rw [sampleLoop, if_pos (by omega), Nat.mod_eq_of_lt (by omega)]
    exact ih _ _ _ (by omega)

theorem pow4_small (k : Nat) (hk : k ≤ 3) : 4 ^ k < 256 := by
  interval_cases k <;> norm_num

/-- C15 (amended): for every oversampling factor k from 0 to 3 (13 bits, the maximum the
source documents) takeSample returns after performing exactly 4^k raw conversions; for
k from 1 to 3 its loop with the byte counter i and bound 4^k exits after 4^k iterations,
and not earlier. -/
theorem takeSample_terminates (k fuel : Nat) (read : Nat → Nat) (n0 : Nat) (hk : k ≤ 3)
    (hfuel : 4 ^ k < fuel) :
    (∃ v, takeSample k fuel read n0 = some (v, n0 + 4 ^ k))
    ∧ (0 < k → ∃ total, sampleLoop k read fuel 0 n0 0 = some (total, n0 + 4 ^ k))
    ∧ (0 < k → ∀ less, less ≤ 4 ^ k → sampleLoop k read less 0 n0 0 = none) := by
  have h4 := pow4_small k hk
  have hl := sampleLoop_spec k read h4 (4 ^ k) fuel 0 n0 0 (by omega) hfuel (by norm_num)
  refine ⟨?_, ?_, ?_⟩
  · by_cases h0 : 0 < k
    · simp only [takeSample, gt_iff_lt, h0, if_true, hl]
      exact ⟨_, rfl⟩
    · have hz : k = 0 := by omega
      subst hz
      exact ⟨_, rfl⟩
  · intro _
    exact ⟨_, hl⟩
  · intro _ less hless
    exact sampleLoop_short k read h4 less 0 n0 0 (by omega)

theorem takeSample_terminates_witness :
    (3 : Nat) ≤ 3 ∧ 4 ^ 3 < 65
    ∧ ∃ v, takeSample 3 65 (tenBitAdc CURRENT) 0 = some (v, 0 + 4 ^ 3) :=
  ⟨by decide, by decide,
    (takeSample_terminates 3 65 (tenBitAdc CURRENT) 0 (by decide) (by decide)).1⟩

/-- C15 fails as stated at k = 4: the bound 4^4 = 256 is above every value of the byte
counter i, so the loop of takeSample never exits and takeSample returns for no amount of
fuel. -/
theorem takeSample_four_never_returns :
    (4 : Nat) ^ 4 = 256 ∧ ∀ fuel, takeSample 4 fuel zeroRead 0 = none := by
  refine ⟨by norm_num, fun fuel => ?_⟩
  simp only [takeSample, gt_iff_lt, Nat.ofNat_pos, if_true,
    sampleLoop_diverges 4 zeroRead (by norm_num) fuel 0 0 0 (by norm_num)]

/-! ## Range of the sampler -/

theorem running_sum_le (read : Nat → Nat) (n0 d : Nat) (hraw : ∀ n, read n ≤ 1023) :
    ∑ j ∈ Finset.range d, read (n0 + j) ≤ d * 1023 := by
  have h := Finset.sum_le_card_nsmul (Finset.range d) (fun j => read (n0 + j)) 1023
    (fun j _ => hraw (n0 + j))
  simpa using h

theorem sampleLoop_running_sum (read : Nat → Nat) (n0 fuel : Nat) (hfuel : 17 ≤ fuel)
    (hraw : ∀ n, read n ≤ 1023) :
    ∀ d, d ≤ 16 →
      sampleLoop 2 read fuel 0 n0 0
        = sampleLoop 2 read (fuel - d) d (n0 + d) (∑ j ∈ Finset.range d, read (n0 + j)) := by
  intro d
  induction d with
  | zero => intro _; simp
  | succ d ih =>
    intro hd
    have hp := running_sum_le read n0 (d + 1) hraw
    rw [Finset.sum_range_succ] at hp
    rw [ih (by omega)]
    obtain ⟨f, hf⟩ : ∃ f, fuel - d = f + 1 := ⟨fuel - d - 1, by omega⟩
    have hf1 : fuel - (d + 1) = f := by omega
    rw [hf, hf1, sampleLoop, if_pos (by norm_num; omega), Nat.mod_eq_of_lt (by omega),
      Finset.sum_range_succ, Nat.mod_eq_of_lt (by omega)]
    rfl

/-- C16: with ADC_OS = 2 and every raw conversion in 0..1023, the accumulator of takeSample
holds the exact sum of the conversions read so far at every iteration (each below 2^32, so
the 32 bit addition never wraps), the shifted total is below 2^16 so the cast to word loses
nothing, and the returned value is at most max_samples = 2^(10 + ADC_OS) - 1. -/
theorem takeSample_range (fuel : Nat) (read : Nat → Nat) (n0 : Nat) (hfuel : 17 ≤ fuel)
    (hraw : ∀ n, read n ≤ 1023) :
    (∀ d, d ≤ 4 ^ ADC_OS →
        sampleLoop ADC_OS read fuel 0 n0 0
          = sampleLoop ADC_OS read (fuel - d) d (n0 + d)
              (∑ j ∈ Finset.range d, read (n0 + j))
        ∧ ∑ j ∈ Finset.range d, read (n0 + j) < 2 ^ 32)
    ∧ sampleLoop ADC_OS read fuel 0 n0 0
        = some (∑ j ∈ Finset.range (4 ^ ADC_OS), read (n0 + j), n0 + 4 ^ ADC_OS)
    ∧ (∑ j ∈ Finset.range (4 ^ ADC_OS), read (n0 + j)) >>> ADC_OS < 2 ^ 16
    ∧ takeSample ADC_OS fuel read n0
        = some ((∑ j ∈ Finset.range (4 ^ ADC_OS), read (n0 + j)) >>> ADC_OS, n0 + 4 ^ ADC_OS)
    ∧ (∑ j ∈ Finset.range (4 ^ ADC_OS), read (n0 + j)) >>> ADC_OS ≤ init.max_samples
    ∧ init.max_samples = 2 ^ (10 + ADC_OS) - 1 := by
  have h16 : (4 : Nat) ^ ADC_OS = 16 := by decide
  have hs := sum16_le read n0 hraw
  have hsh : (∑ j ∈ Finset.range 16, read (n0 + j)) >>> 2 ≤ 4092 := by
    rw [Nat.shiftRight_eq_div_pow]
    omega
  have hloop := sampleLoop_spec 2 read (by norm_num) 16 fuel 0 n0 0 (by norm_num) (by omega)
    (by norm_num)
  rw [Nat.zero_add, Nat.mod_eq_of_lt (by omega)] at hloop
  rw [h16]
  refine ⟨?_, hloop, ?_, ?_, ?_, by decide⟩
  · intro d hd
    have hp := running_sum_le read n0 d hraw
    exact ⟨sampleLoop_running_sum read n0 fuel hfuel hraw d hd, by omega⟩
  · show (∑ j ∈ Finset.range 16, read (n0 + j)) >>> 2 < 2 ^ 16
    omega
  · rw [takeSample_configured fuel read n0 hfuel, oversampled_eq read n0 hraw]
    rfl
  · rw [init_max_samples]
    show (∑ j ∈ Finset.range 16, read (n0 + j)) >>> 2 ≤ 4095
    omega

theorem takeSample_range_witness :
    (∀ n, tenBitAdc CURRENT n ≤ 1023)
    ∧ (∑ j ∈ Finset.range (4 ^ ADC_OS), tenBitAdc CURRENT (0 + j)) >>> ADC_OS
        ≤ init.max_samples := by
  have hraw : ∀ n, tenBitAdc CURRENT n ≤ 1023 := by
    intro n
    show (CURRENT * 61 + n * 7) % 1024 ≤ 1023
    omega
  exact ⟨hraw, (takeSample_range 17 (tenBitAdc CURRENT) 0 (by decide) hraw).2.2.2.2.1⟩

/-! ## The tick counter -/

theorem exec_adccount_le (evs : List Event) :
    ∀ s : State, s.adccount ≤ 7 → (exec evs s).1.adccount ≤ 7 := by
  induction evs with
  | nil => intro s h; exact h
  | cons e es ih =>
    intro s h
    obtain ⟨h1, _⟩ := next_adccount e s h
    simp only [exec]
    apply ih
    rw [h1]
    split <;> omega

/-- C17: in every state reachable from the initial state by any interleaving of loop
iterations, incLightning, incWindSpeed, softInt and requestEvent, adccount lies in 0..7, so
it never overflows its byte; and incLightning, incWindSpeed, softInt, requestEvent (with
toArray and resetValues) leave adccount unchanged, so only loop changes it. -/
theorem adccount_invariant (fuel : Nat) (hfuel : 17 ≤ fuel) (evs : List Event) :
    (∃ s log, run fuel evs init = some (s, log) ∧ s.adccount ≤ 7 ∧ s.adccount < 256)
    ∧ (∀ (u : State) (pin : Bool) (value : Nat),
        (incLightning u).adccount = u.adccount
        ∧ (incWindSpeed u).adccount = u.adccount
        ∧ (softInt pin u).adccount = u.adccount
        ∧ (toArray value u).adccount = u.adccount
        ∧ (resetValues u).adccount = u.adccount
        ∧ (requestEvent u).1.adccount = u.adccount) := by
  constructor
  · obtain ⟨s, log, hrun, hs, _⟩ := run_total fuel hfuel evs init
    have h := exec_adccount_le evs init (by decide)
    rw [← hs] at h
    exact ⟨s, log, hrun, h, by omega⟩
  · intro u pin value
    refine ⟨rfl, rfl, ?_, rfl, rfl, by simp [requestEvent, resetValues, toArray]⟩
    simp only [softInt]
    split <;> rfl

theorem adccount_invariant_witness :
    ∃ s log, run 17 (List.replicate 20 (Event.loop tenBitAdc)) init = some (s, log)
      ∧ s.adccount ≤ 7 ∧ s.adccount < 256 :=
  (adccount_invariant 17 (by decide) (List.replicate 20 (Event.loop tenBitAdc))).1

/-! ## The current reading on the bus -/

theorem next_readings (e : Event) (s : State) (he : e.isLoop = false) :
    (next e s).1.adcBatt = s.adcBatt ∧ (next e s).1.adcLM35 = s.adcLM35
    ∧ (next e s).1.adcCurr = s.adcCurr ∧ (next e s).1.adcWinDir = s.adcWinDir := by
  cases e with
  | loop adc => simp [Event.isLoop] at he
  | incLightning => simp [next, incLightning]
  | incWindSpeed => simp [next, incWindSpeed]
  | softInt pin =>
    simp only [next, softInt]
    split <;> simp
  | requestEvent => simp [next, requestEvent, resetValues, toArray]

theorem exec_readings (evs : List Event) :
    ∀ s : State, (∀ e ∈ evs, e.isLoop = false) →
      (exec evs s).1.adcBatt = s.adcBatt ∧ (exec evs s).1.adcLM35 = s.adcLM35
      ∧ (exec evs s).1.adcCurr = s.adcCurr ∧ (exec evs s).1.adcWinDir = s.adcWinDir := by
  induction evs with
  | nil => intro s _; exact ⟨rfl, rfl, rfl, rfl⟩
  | cons e es ih =>
    intro s hq
    obtain ⟨h1, h2, h3, h4⟩ := next_readings e s (hq e (List.mem_cons_self e es))
    obtain ⟨i1, i2, i3, i4⟩ := ih (next e s).1 (fun x hx => hq x (List.mem_cons_of_mem e hx))
    simp only [exec]
    exact ⟨by rw [i1, h1], by rw [i2, h2], by rw [i3, h3], by rw [i4, h4]⟩

theorem wordAt_readings (u : State) (hb : u.adcBatt < 65536) (ht : u.adcLM35 < 65536)
    (hw : u.adcWinDir < 65536) :
    wordAt (requestEvent u).2 1 = u.adcBatt ∧ wordAt (requestEvent u).2 2 = u.adcLM35
    ∧ wordAt (requestEvent u).2 3 = wordOfInt u.adcCurr
    ∧ wordAt (requestEvent u).2 4 = u.adcWinDir
    ∧ ((requestEvent u).2.drop 6).take 2
        = [wordOfInt u.adcCurr / 256, wordOfInt u.adcCurr % 256] := by
  have hc := wordOfInt_lt u.adcCurr
  rw [requestEvent_raw]
  simp only [wordAt, Nat.reduceMul, Nat.reduceAdd, List.getD_cons_zero, List.getD_cons_succ,
    land255_mod, shift8_mod _ hb, shift8_mod _ ht, shift8_mod _ hw, shift8_mod _ hc,
    List.drop_succ_cons, List.drop_zero, List.take_succ_cons, List.take_zero]
  refine ⟨?_, ?_, ?_, ?_, trivial⟩ <;> omega

/-- C18: when the raw conversions of the current channel are in 0..1023, the word w that
takeSample returns for the current channel in a sampling pass is stored in the signed
adcCurr without change, and every requestEvent that follows before the next loop iteration
transmits exactly w as its current word (bytes w / 256, w mod 256), just as the battery,
temperature and wind-direction words are the values takeSample returned for them. -/
theorem current_survives_signed_storage (fuel : Nat) (hfuel : 17 ≤ fuel)
    (adc : Nat → Nat → Nat) (s : State) (evs : List Event) (hdue : 7 ≤ s.adccount)
    (hraw : ∀ n, adc CURRENT n ≤ 1023) (hquiet : ∀ e ∈ evs, e.isLoop = false) :
    ∃ batt temp w wdir t u log,
      takeSample ADC_OS fuel (adc BATTPIN) 0 = some (batt, 16)
      ∧ takeSample ADC_OS fuel (adc LM35) 16 = some (temp, 32)
      ∧ takeSample ADC_OS fuel (adc CURRENT) 32 = some (w, 48)
      ∧ takeSample ADC_OS fuel (adc WINDDIRPIN) 48 = some (wdir, 64)
      ∧ loop fuel adc s = some (t, 64)
      ∧ t.adcCurr = (w : Int)
      ∧ run fuel evs t = some (u, log)
      ∧ u.adcCurr = (w : Int)
      ∧ ((requestEvent u).2.drop 6).take 2 = [w / 256, w % 256]
      ∧ wordAt (requestEvent u).2 3 = w
      ∧ wordAt (requestEvent u).2 1 = batt
      ∧ wordAt (requestEvent u).2 2 = temp
      ∧ wordAt (requestEvent u).2 4 = wdir := by
  have hle := oversampled_le (adc CURRENT) 32 hraw
  have hint : intOfWord (oversampled (adc CURRENT) 32) = (oversampled (adc CURRENT) 32 : Int) :=
    intOfWord_small _ (by omega)
  have hword := wordOfInt_natCast (oversampled (adc CURRENT) 32) (by omega)
  obtain ⟨u, log, hrun, hu, _⟩ := run_total fuel hfuel evs (sampled adc s)
  obtain ⟨r1, r2, r3, r4⟩ := exec_readings evs (sampled adc s) hquiet
  rw [← hu] at r1 r2 r3 r4
  have r1b : u.adcBatt = oversampled (adc BATTPIN) 0 := r1
  have r2b : u.adcLM35 = oversampled (adc LM35) 16 := r2
  have r3b : u.adcCurr = (oversampled (adc CURRENT) 32 : Int) := by
    rw [r3]
    exact hint
  have r4b : u.adcWinDir = oversampled (adc WINDDIRPIN) 48 := r4
  obtain ⟨w1, w2, w3, w4, w5⟩ := wordAt_readings u
    (by rw [r1b]; exact oversampled_lt _ _) (by rw [r2b]; exact oversampled_lt _ _)
    (by rw [r4b]; exact oversampled_lt _ _)
  rw [r3b, hword] at w3 w5
  refine ⟨_, _, _, _, sampled adc s, u, log, takeSample_configured fuel _ 0 hfuel,
    takeSample_configured fuel _ 16 hfuel, takeSample_configured fuel _ 32 hfuel,
    takeSample_configured fuel _ 48 hfuel, ?_, hint, hrun, r3b, w5, w3, ?_, ?_, ?_⟩
  · rw [loop_eq fuel adc s hfuel, if_pos hdue]
  · rw [w1, r1b]
  · rw [w2, r2b]
  · rw [w4, r4b]

theorem current_survives_signed_storage_witness :
    7 ≤ dueState.adccount ∧ (∀ n, tenBitAdc CURRENT n ≤ 1023)
    ∧ (∀ e ∈ quietEvents, e.isLoop = false)
    ∧ ∃ w t u log, takeSample ADC_OS 17 (tenBitAdc CURRENT) 32 = some (w, 48)
        ∧ loop 17 tenBitAdc dueState = some (t, 64)
        ∧ run 17 quietEvents t = some (u, log)
        ∧ wordAt (requestEvent u).2 3 = w := by
  have hraw : ∀ n, tenBitAdc CURRENT n ≤ 1023 := by
    intro n
    show (CURRENT * 61 + n * 7) % 1024 ≤ 1023
    omega
  have hq : ∀ e ∈ quietEvents, e.isLoop = false := by
    intro e he
    simp only [quietEvents, List.mem_cons, List.mem_singleton, List.not_mem_nil, or_false] at he
    rcases he with h | h | h | h <;> rw [h] <;> rfl
  obtain ⟨_, _, w, _, t, u, log, _, _, hw, _, hl, _, hrun, _, _, h3, _⟩ :=
    current_survives_signed_storage 17 (by decide) tenBitAdc dueState quietEvents
      (by decide) hraw hq
  exact ⟨by decide, hraw, hq, w, t, u, log, hw, hl, hrun, h3⟩

end WxStation
